import Mathlib

/-
Verification development for the CVRP chromosome construction and repair
engine in `src/gatsp.cpp`.

Embedding conventions:
- C++ `int` values are modelled as `Int`; `size_t` loop indices as `Nat`.
- The separator token is the literal `0`; customer ids are the nonzero
  tokens.
- `std::vector<int>` demand / visited / count arrays are modelled as total
  functions `Int → Int` / `Int → Bool`; this agrees with the C++ arrays on
  all in-range indices, which are the only indices the claims exercise.
- `double` costs are modelled as exact rationals `ℚ`, with `round(x*100)/100`
  modelled as exact half-away-from-zero rounding (the semantics of C `round`).
- The `while` loop of `repairZero` need not terminate; it is modelled with
  fuel, returning `none` exactly when the C++ loop runs forever (one unit of
  fuel per iteration of the `while` body; `seq.count 0 + 1` units are enough
  for every terminating run because every executed body iteration removes at
  least one separator, see `rzFor_invariant` below).
- The out-of-bounds read `missing[idx]` that `repairCustomer` can perform is
  modelled by `Option`: `none` means the C++ code read out of range
  (undefined behaviour).
-/

namespace Gatsp

/-- The semantics of C `round`: round half away from zero. -/
def roundC (x : ℚ) : ℤ := if 0 ≤ x then ⌊x + 1/2⌋ else ⌈x - 1/2⌉

/-- `round(x * 100.0) / 100.0`: rounding to two decimal places, as performed
at each of the three levels (`euclidDist`, `routeCost`, `totalCost`). -/
def rnd2 (x : ℚ) : ℚ := (roundC (x * 100) : ℚ) / 100

/-- `euclidDist` rounds the exact Euclidean distance to two decimals at the
moment it is computed.  The square root itself is kept symbolic: the argument
`d` is the exact distance value (the theorems instantiate it with rational
distances arising from concrete coordinates). -/
def euclidDistOfRaw (d : ℚ) : ℚ := rnd2 d

/-- The list of integers `[a, a+1, ..., b]` (empty when `b < a`); models the
C++ loops `for (int i = a; i <= b; ++i)`. -/
def intRange (a b : Int) : List Int :=
  (List.range (b + 1 - a).toNat).map (fun k : Nat => a + (k : Int))

/-- The non-separator (customer) tokens of a chromosome. -/
def nonzeros (l : List Int) : List Int := l.filter (fun v => v != 0)

/-- The interior nodes of a route: indices `1 .. size-2`, i.e. the route
without its two depot endpoints. -/
def interior (r : List Int) : List Int := (r.drop 1).dropLast

/-- `routeDemand`: sum of demand over the interior ids of a route. -/
def routeDemand (route : List Int) (demand : Int → Int) : Int :=
  ((interior route).map demand).sum

/-- Sum of `dist` over consecutive pairs of a node list (the loop
`for i = 0 .. size-2: cost += dist[r[i]][r[i+1]]`). -/
def edgeSum (dist : Int → Int → ℚ) : List Int → ℚ
  | a :: b :: rest => dist a b + edgeSum dist (b :: rest)
  | _ => 0

/-- `routeCost`: the edge sum of a route, rounded again to two decimals. -/
def routeCost (route : List Int) (dist : Int → Int → ℚ) : ℚ :=
  rnd2 (edgeSum dist route)

/-- `totalCost`: the sum of the route costs, rounded a third time. -/
def totalCost (routes : List (List Int)) (dist : Int → Int → ℚ) : ℚ :=
  rnd2 ((routes.map (fun r => routeCost r dist)).sum)

/-- The inner loop of `checkSolution` over one route's interior: returns
`none` as soon as an already-visited id is seen (the C++ `return false`),
otherwise the updated visited map. -/
def visitRoute : List Int → (Int → Bool) → Option (Int → Bool)
  | [], vis => some vis
  | v :: rest, vis =>
    if vis v then none
    else visitRoute rest (fun x => if x = v then true else vis x)

/-- The route loop of `checkSolution`: demand check then interior visit, per
route; `none` models an early `return false`. -/
def checkRoutes (demand : Int → Int) (capacity : Int) :
    List (List Int) → (Int → Bool) → Option (Int → Bool)
  | [], vis => some vis
  | r :: rest, vis =>
    if capacity < routeDemand r demand then none
    else
      match visitRoute (interior r) vis with
      | none => none
      | some vis1 => checkRoutes demand capacity rest vis1

/-- `checkSolution(routes, demand, capacity, n)` from the source: every
route's demand is checked against `capacity`, interior ids are marked in a
visited array rejecting revisits, and finally ids `2..n` must all be
visited. -/
def checkSolution (routes : List (List Int)) (demand : Int → Int)
    (capacity : Int) (n : Int) : Bool :=
  match checkRoutes demand capacity routes (fun _ => false) with
  | none => false
  | some vis => (intRange 2 n).all (fun i => vis i)

/-- The behaviour the specification ascribes to `checkSolution`: true iff
every route's demand is within capacity and every id in `2..n` occurs
exactly once among the interiors.  Written from the claim's words, for
comparison against the source-derived `checkSolution`. -/
def checkSolutionSpec (routes : List (List Int)) (demand : Int → Int)
    (capacity : Int) (n : Int) : Bool :=
  routes.all (fun r => decide (routeDemand r demand ≤ capacity)) &&
  (intRange 2 n).all (fun i => ((routes.map interior).flatten.count i) == 1)

/-- The scan of `decodeSeq`: `cur` is the route under construction (it always
starts with the depot); a separator closes the current route, and a final
route holding more than the bare depot is emitted after the scan. -/
def decodeAux (depot : Int) : List Int → List Int → List (List Int)
  | [], cur => if cur.length > 1 then [cur ++ [depot]] else []
  | v :: rest, cur =>
    if v = 0 then (cur ++ [depot]) :: decodeAux depot rest [depot]
    else decodeAux depot rest (cur ++ [v])

/-- `decodeSeq`: chromosome to depot-rooted routes. -/
def decodeSeq (seq : List Int) (depot : Int) : List (List Int) :=
  decodeAux depot seq [depot]

/-- Concatenation of the bins with exactly one separator token between
consecutive bins (never after the last): step 4 of `initPopulationSeq`. -/
def joinZeros : List (List Int) → List Int
  | [] => []
  | [g] => g
  | g :: gs => g ++ 0 :: joinZeros gs

/-- A chromosome with its trailing separator removed when it has one. -/
def stripLastZero (seq : List Int) : List Int :=
  if seq.getLast? = some 0 then seq.dropLast else seq

/-- The greedy packing loop of `initPopulationSeq` (step 2): customers are
appended to the current bin while the load fits, otherwise the current bin is
pushed (even when empty) and a fresh bin is started; a nonempty final bin is
pushed after the scan. -/
def packLoop (demand : Int → Int) (capacity : Int) :
    List Int → List Int → Int → List (List Int)
  | [], cur, _ => if cur = [] then [] else [cur]
  | c :: rest, cur, load =>
    if load + demand c ≤ capacity then
      packLoop demand capacity rest (cur ++ [c]) (load + demand c)
    else
      cur :: packLoop demand capacity rest [c] (demand c)

/-- Step 3 of `initPopulationSeq`: append empty bins until there are at least
`vehicle` bins. -/
def padGroups (groups : List (List Int)) (vehicle : Int) : List (List Int) :=
  groups ++ List.replicate (vehicle - (groups.length : Int)).toNat []

/-- One chromosome of `initPopulationSeq`, as a function of the shuffled
customer list (the randomness of `shuffle` is exposed as the argument). -/
def genSeq (shuffled : List Int) (capacity : Int) (demand : Int → Int)
    (vehicle : Int) : List Int :=
  joinZeros (padGroups (packLoop demand capacity shuffled [] 0) vehicle)

/-- `initPopulationSeq`: one chromosome per shuffle, 50 shuffles in the
source. -/
def initPopulationSeq (shuffles : List (List Int)) (capacity : Int)
    (demand : Int → Int) (vehicle : Int) : List (List Int) :=
  shuffles.map (fun s => genSeq s capacity demand vehicle)

/-- The second `if` of the `repairZero` loop body: erase the leftmost
separator when one exists, and report whether the target count was reached
(the C++ `break`). -/
def secondIf (needZero : Int) (s : List Int) (z : Int) : List Int × Int × Bool :=
  if (0 : Int) ∈ s then (s.erase 0, z - 1, decide (z - 1 = needZero))
  else (s, z, decide (z = needZero))

/-- One iteration of the `for` body of `repairZero` at index `i`: possibly
erase the separator at `i` when the next token is also a separator (the
boundary disjuncts `i == 0` and `i == seq.size()-1` are kept although the
loop bounds make them unreachable), then, when still above target, erase the
leftmost separator.  The `Bool` component reports a `break`. -/
def rzStep (needZero : Int) (seq : List Int) (i : Nat) (zc : Int) :
    List Int × Int × Bool :=
  if seq.get? i = some 0 ∧
      (i = 0 ∨ i = seq.length - 1 ∨ (i + 1 < seq.length ∧ seq.get? (i + 1) = some 0)) then
    if zc - 1 = needZero then (seq.eraseIdx i, zc - 1, true)
    else if zc - 1 > needZero then secondIf needZero (seq.eraseIdx i) (zc - 1)
    else (seq.eraseIdx i, zc - 1, false)
  else
    if zc > needZero then secondIf needZero seq zc
    else (seq, zc, false)

/-- The `for (int i = 1; i < seq.size() - 1; i++)` loop of `repairZero`.
The fuel only bounds the number of iterations; `seq.length` units are always
enough because `i` increases and the sequence never grows. -/
def rzFor (needZero : Int) : Nat → List Int → Nat → Int → List Int × Int
  | 0, seq, _, zc => (seq, zc)
  | fuel + 1, seq, i, zc =>
    if i + 1 < seq.length then
      match rzStep needZero seq i zc with
      | (s, z, true) => (s, z)
      | (s, z, false) => rzFor needZero fuel s (i + 1) z
    else (seq, zc)

/-- The `while (zeroCount > needZero)` loop of `repairZero`, one unit of fuel
per iteration of the body; `none` models non-termination. -/
def rzWhile (needZero : Int) : Nat → List Int → Int → Option (List Int)
  | 0, seq, zc => if zc > needZero then none else some seq
  | fuel + 1, seq, zc =>
    if zc > needZero then
      match rzFor needZero seq.length seq 1 zc with
      | (s, z) => rzWhile needZero fuel s z
    else some seq

/-- `repairZero(seq, vehicle)`: remove separators until `vehicle - 1` remain.
Returns `none` exactly when the C++ loop never terminates. -/
def repairZero (seq : List Int) (vehicle : Int) : Option (List Int) :=
  rzWhile (vehicle - 1) (seq.count 0 + 1) seq (seq.count 0)

/-- Modelled from the spec (§4.2, for comparison with the code): erase the
first separator of the leftmost adjacent separator pair. -/
def eraseFirstAdjZero : List Int → Option (List Int)
  | 0 :: 0 :: rest => some (0 :: rest)
  | v :: rest => (eraseFirstAdjZero rest).map (fun l => v :: l)
  | [] => none

/-- Modelled from the spec: phase (a) of the claimed removal order — remove
separators bounding an empty bin, leftmost first, until the target count or
no adjacent pair remains. -/
def phaseA (needZero : Int) : Nat → List Int → List Int
  | 0, seq => seq
  | fuel + 1, seq =>
    if needZero < (seq.count 0 : Int) then
      match eraseFirstAdjZero seq with
      | some s => phaseA needZero fuel s
      | none => seq
    else seq

/-- Modelled from the spec: phase (b) of the claimed removal order — remove
leftmost separators until the target count is reached. -/
def phaseB (needZero : Int) : Nat → List Int → List Int
  | 0, seq => seq
  | fuel + 1, seq =>
    if needZero < (seq.count 0 : Int) then phaseB needZero fuel (seq.erase 0)
    else seq

/-- Modelled from the spec: `ZeroRepair`'s claimed removal preference order —
all adjacent-pair removals first, then leftmost-first removals. -/
def repairZeroSpec (seq : List Int) (vehicle : Int) : List Int :=
  phaseB (vehicle - 1) seq.length (phaseA (vehicle - 1) seq.length seq)

/-- The occurrence-count array of `repairCustomer` after its first loop:
`count[v]` is the number of occurrences of `v` among nonzero tokens
(`count[0]` is never incremented). -/
def initCount (seq : List Int) : Int → Int :=
  fun v => if v = 0 then 0 else (seq.count v : Int)

/-- The inner replacement scan of `repairCustomer` (`for (int& v : seq)`):
a nonzero token whose count exceeds 1 is overwritten with `missing[idx++]`
(reading `missing[idx]` out of range is `none`), then the count of the
newly written id is decremented, and the scan breaks once `idx` reaches
`missing.size()`. -/
def rcInner (missing : List Int) : List Int → Nat → (Int → Int) →
    Option (List Int × (Int → Int))
  | [], _, cnt => some ([], cnt)
  | v :: rest, idx, cnt =>
    if v ≠ 0 ∧ 1 < cnt v then
      match missing.get? idx with
      | none => none
      | some newv =>
        let cnt1 := fun x => if x = newv then cnt x - 1 else cnt x
        if idx + 1 ≥ missing.length then some (newv :: rest, cnt1)
        else
          match rcInner missing rest (idx + 1) cnt1 with
          | none => none
          | some (rest1, cnt2) => some (newv :: rest1, cnt2)
    else
      match rcInner missing rest idx cnt with
      | none => none
      | some (rest1, cnt2) => some (v :: rest1, cnt2)

/-- The outer `for (int i = 2; i <= n; ++i)` loop of `repairCustomer`: push
`i` onto `missing` when its count is zero, then run the full inner scan with
`idx` reset to 0. -/
def rcOuter : List Int → List Int → (Int → Int) → List Int →
    Option (List Int × (Int → Int) × List Int)
  | [], seq, cnt, missing => some (seq, cnt, missing)
  | i :: is, seq, cnt, missing =>
    let missing1 := if cnt i = 0 then missing ++ [i] else missing
    match rcInner missing1 seq 0 cnt with
    | none => none
    | some (seq1, cnt1) => rcOuter is seq1 cnt1 missing1

/-- `repairCustomer(seq, n)`; `none` models the out-of-range read of the
`missing` vector (undefined behaviour in the C++). -/
def repairCustomer (seq : List Int) (n : Int) : Option (List Int) :=
  (rcOuter (intRange 2 n) seq (initCount seq) []).map (fun r => r.1)

/-- The number of duplicate-occurrence slots of a chromosome: nonzero tokens
whose id occurs more than once. -/
def dupSlots (seq : List Int) : Nat :=
  (seq.filter (fun v => v != 0 && decide (1 < seq.count v))).length

/-- The `missing` list `repairCustomer` accumulates: ids in `2..n` absent
from the chromosome, in ascending order. -/
def missingList (seq : List Int) (n : Int) : List Int :=
  (intRange 2 n).filter (fun i => seq.count i == 0)

/-! Basic facts about `intRange` and `nonzeros`. -/

theorem mem_intRange {a b i : Int} : i ∈ intRange a b ↔ a ≤ i ∧ i ≤ b := by
  unfold intRange
  simp only [List.mem_map, List.mem_range]
  constructor
  · rintro ⟨k, hk, rfl⟩; omega
  · rintro ⟨h1, h2⟩
    exact ⟨(i - a).toNat, by omega, by omega⟩

theorem nodup_intRange {a b : Int} : (intRange a b).Nodup := by
  unfold intRange
  apply List.Nodup.map
  · intro x y h
    simp only at h
    omega
  · exact List.nodup_range _

theorem count_zero_eraseIdx :
    ∀ (l : List Int) (i : Nat), l.get? i = some 0 →
      (l.eraseIdx i).count 0 + 1 = l.count 0 := by
  intro l
  induction l with
  | nil => intro i h; simp at h
  | cons v t ih =>
    intro i h
    cases i with
    | zero =>
      simp only [List.get?] at h
      injection h with h
      subst h
      simp [List.eraseIdx, List.count_cons]
    | succ j =>
      simp only [List.get?] at h
      have := ih j h
      simp only [List.eraseIdx, List.count_cons]
      omega

theorem nonzeros_eraseIdx :
    ∀ (l : List Int) (i : Nat), l.get? i = some 0 →
      nonzeros (l.eraseIdx i) = nonzeros l := by
  intro l
  induction l with
  | nil => intro i h; simp at h
  | cons v t ih =>
    intro i h
    cases i with
    | zero =>
      simp only [List.get?] at h
      injection h with h
      subst h
      simp [List.eraseIdx, nonzeros]
    | succ j =>
      simp only [List.get?] at h
      have ht := ih j h
      simp only [nonzeros] at ht
      simp only [List.eraseIdx, nonzeros, List.filter_cons, ht]

theorem nonzeros_erase_zero : ∀ l : List Int, nonzeros (l.erase 0) = nonzeros l := by
  intro l
  induction l with
  | nil => rfl
  | cons v t ih =>
    by_cases hv : v = 0
    · subst hv
      simp [List.erase_cons, nonzeros]
    · rw [List.erase_cons]
      rw [if_neg (by simpa using hv)]
      simp only [nonzeros] at ih
      simp only [nonzeros, List.filter_cons, ih]

theorem count_nonzeros {v : Int} (l : List Int) (hv : v ≠ 0) :
    (nonzeros l).count v = l.count v := by
  unfold nonzeros
  exact List.count_filter (by simpa using hv)

theorem mem_nonzeros {v : Int} {l : List Int} : v ∈ nonzeros l ↔ v ∈ l ∧ v ≠ 0 := by
  unfold nonzeros
  simp [List.mem_filter]

/-! Invariants of `repairZero`: only separators are removed, the running
`zeroCount` tracks the actual number of separators, and it never drops below
the target. -/

theorem secondIf_nonzeros (needZero : Int) (s : List Int) (z : Int) :
    nonzeros (secondIf needZero s z).1 = nonzeros s := by
  unfold secondIf
  split
  · simpa using nonzeros_erase_zero s
  · rfl

theorem secondIf_inv (needZero : Int) (s : List Int) (z : Int)
    (hz : z = (s.count 0 : Int)) (h : needZero < z) :
    (secondIf needZero s z).2.1 = ((secondIf needZero s z).1.count 0 : Int) ∧
    needZero ≤ (secondIf needZero s z).2.1 ∧
    ((secondIf needZero s z).2.2 = false → needZero < (secondIf needZero s z).2.1) := by
  unfold secondIf
  split
  next hmem =>
    have hcnt : (s.erase 0).count 0 = s.count 0 - 1 := List.count_erase_self 0 s
    have hpos : 0 < s.count 0 := List.count_pos_iff.2 hmem
    refine ⟨by simp; omega, by simp; omega, ?_⟩
    simp only [decide_eq_false_iff_not]
    intro hne
    omega
  next hmem =>
    have hcnt : s.count 0 = 0 := List.count_eq_zero.2 hmem
    refine ⟨by simp; omega, by simp; omega, ?_⟩
    simp only [decide_eq_false_iff_not]
    intro hne
    omega

theorem rzStep_nonzeros (needZero : Int) (seq : List Int) (i : Nat) (zc : Int) :
    nonzeros (rzStep needZero seq i zc).1 = nonzeros seq := by
  by_cases hc : seq.get? i = some 0 ∧
      (i = 0 ∨ i = seq.length - 1 ∨ (i + 1 < seq.length ∧ seq.get? (i + 1) = some 0))
  · have herase := nonzeros_eraseIdx seq i hc.1
    by_cases he : zc - 1 = needZero
    · simp only [rzStep, if_pos hc, if_pos he]
      simpa using herase
    · by_cases hg : zc - 1 > needZero
      · simp only [rzStep, if_pos hc, if_neg he, if_pos hg]
        rw [secondIf_nonzeros]
        exact herase
      · simp only [rzStep, if_pos hc, if_neg he, if_neg hg]
        simpa using herase
  · by_cases hg : zc > needZero
    · simp only [rzStep, if_neg hc, if_pos hg]
      exact secondIf_nonzeros needZero seq zc
    · simp only [rzStep, if_neg hc, if_neg hg]

theorem rzStep_inv (needZero : Int) (seq : List Int) (i : Nat) (zc : Int)
    (hzc : zc = (seq.count 0 : Int)) (h : needZero < zc) :
    (rzStep needZero seq i zc).2.1 = ((rzStep needZero seq i zc).1.count 0 : Int) ∧
    needZero ≤ (rzStep needZero seq i zc).2.1 ∧
    ((rzStep needZero seq i zc).2.2 = false → needZero < (rzStep needZero seq i zc).2.1) := by
  by_cases hc : seq.get? i = some 0 ∧
      (i = 0 ∨ i = seq.length - 1 ∨ (i + 1 < seq.length ∧ seq.get? (i + 1) = some 0))
  · have herase := count_zero_eraseIdx seq i hc.1
    by_cases he : zc - 1 = needZero
    · simp only [rzStep, if_pos hc, if_pos he]
      exact ⟨by omega, by omega, by simp⟩
    · by_cases hg : zc - 1 > needZero
      · simp only [rzStep, if_pos hc, if_neg he, if_pos hg]
        exact secondIf_inv needZero (seq.eraseIdx i) (zc - 1) (by omega) hg
      · exact absurd h (by omega)
  · by_cases hg : zc > needZero
    · simp only [rzStep, if_neg hc, if_pos hg]
      exact secondIf_inv needZero seq zc hzc hg
    · exact absurd h hg

theorem rzFor_nonzeros (needZero : Int) :
    ∀ (fuel : Nat) (seq : List Int) (i : Nat) (zc : Int),
      nonzeros (rzFor needZero fuel seq i zc).1 = nonzeros seq := by
  intro fuel
  induction fuel with
  | zero => intro seq i zc; rfl
  | succ f ih =>
    intro seq i zc
    unfold rzFor
    split
    · have hstep := rzStep_nonzeros needZero seq i zc
      rcases hr : rzStep needZero seq i zc with ⟨s, z, brk⟩
      rw [hr] at hstep
      cases brk
      · simpa [ih s (i + 1) z] using hstep
      · simpa using hstep
    · rfl

theorem rzFor_inv (needZero : Int) :
    ∀ (fuel : Nat) (seq : List Int) (i : Nat) (zc : Int),
      zc = (seq.count 0 : Int) → needZero < zc →
      (rzFor needZero fuel seq i zc).2 = ((rzFor needZero fuel seq i zc).1.count 0 : Int) ∧
      needZero ≤ (rzFor needZero fuel seq i zc).2 := by
  intro fuel
  induction fuel with
  | zero => intro seq i zc hzc h; exact ⟨hzc, le_of_lt h⟩
  | succ f ih =>
    intro seq i zc hzc h
    unfold rzFor
    split
    · have hstep := rzStep_inv needZero seq i zc hzc h
      rcases hr : rzStep needZero seq i zc with ⟨s, z, brk⟩
      rw [hr] at hstep
      cases brk
      · exact ih s (i + 1) z hstep.1 (hstep.2.2 rfl)
      · exact ⟨hstep.1, hstep.2.1⟩
    · exact ⟨hzc, le_of_lt h⟩

theorem rzWhile_nonzeros (needZero : Int) :
    ∀ (fuel : Nat) (seq : List Int) (zc : Int) (out : List Int),
      rzWhile needZero fuel seq zc = some out → nonzeros out = nonzeros seq := by
  intro fuel
  induction fuel with
  | zero =>
    intro seq zc out h
    unfold rzWhile at h
    split at h
    · cases h
    · cases h; rfl
  | succ f ih =>
    intro seq zc out h
    unfold rzWhile at h
    split at h
    · have hfor := rzFor_nonzeros needZero seq.length seq 1 zc
      rcases hr : rzFor needZero seq.length seq 1 zc with ⟨s, z⟩
      rw [hr] at h hfor
      rw [ih s z out h]
      exact hfor
    · cases h; rfl

theorem rzWhile_count (needZero : Int) :
    ∀ (fuel : Nat) (seq : List Int) (zc : Int) (out : List Int),
      rzWhile needZero fuel seq zc = some out →
      zc = (seq.count 0 : Int) → needZero ≤ zc →
      (out.count 0 : Int) = needZero := by
  intro fuel
  induction fuel with
  | zero =>
    intro seq zc out h hzc hge
    unfold rzWhile at h
    split at h
    · cases h
    next hng => cases h; omega
  | succ f ih =>
    intro seq zc out h hzc hge
    unfold rzWhile at h
    split at h
    next hgt =>
      have hfor := rzFor_inv needZero seq.length seq 1 zc hzc hgt
      rcases hr : rzFor needZero seq.length seq 1 zc with ⟨s, z⟩
      rw [hr] at h hfor
      exact ih s z out h hfor.1 hfor.2
    next hng => cases h; omega

theorem repairZero_some_nonzeros {seq out : List Int} {vehicle : Int}
    (h : repairZero seq vehicle = some out) : nonzeros out = nonzeros seq :=
  rzWhile_nonzeros _ _ _ _ _ h

theorem repairZero_some_count {seq out : List Int} {vehicle : Int}
    (h : repairZero seq vehicle = some out)
    (hge : vehicle - 1 ≤ (seq.count 0 : Int)) : (out.count 0 : Int) = vehicle - 1 :=
  rzWhile_count _ _ _ _ _ h rfl hge

/-! Structure of the generated chromosome: the bins concatenate back to the
shuffled customer list, and `joinZeros` puts exactly one separator between
consecutive bins. -/

theorem joinZeros_cons (g : List Int) (gs : List (List Int)) (h : gs ≠ []) :
    joinZeros (g :: gs) = g ++ 0 :: joinZeros gs := by
  cases gs with
  | nil => exact absurd rfl h
  | cons g1 t => rfl

theorem nonzeros_append (l1 l2 : List Int) :
    nonzeros (l1 ++ l2) = nonzeros l1 ++ nonzeros l2 := by
  simp [nonzeros]

theorem nonzeros_eq_self {l : List Int} (h : ∀ v ∈ l, v ≠ 0) : nonzeros l = l := by
  unfold nonzeros
  rw [List.filter_eq_self]
  intro v hv
  simpa using h v hv

theorem nonzeros_joinZeros :
    ∀ gs : List (List Int), (∀ g ∈ gs, ∀ v ∈ g, v ≠ 0) →
      nonzeros (joinZeros gs) = gs.flatten
  | [], _ => rfl
  | [g], h => by
    simp only [joinZeros, List.flatten]
    rw [nonzeros_eq_self (h g (by simp))]
    simp
  | g :: g1 :: t, h => by
    rw [joinZeros_cons g (g1 :: t) (by simp), nonzeros_append]
    have h0 : nonzeros (0 :: joinZeros (g1 :: t)) = nonzeros (joinZeros (g1 :: t)) := by
      simp [nonzeros]
    rw [h0, nonzeros_joinZeros (g1 :: t) (fun g2 hg2 => h g2 (List.mem_cons_of_mem _ hg2)),
      nonzeros_eq_self (h g (by simp))]
    rfl

theorem count_zero_joinZeros :
    ∀ gs : List (List Int), (∀ g ∈ gs, ∀ v ∈ g, v ≠ 0) → gs ≠ [] →
      (joinZeros gs).count 0 + 1 = gs.length
  | [], _, hne => absurd rfl hne
  | [g], h, _ => by
    have : (g.count 0) = 0 := by
      rw [List.count_eq_zero]
      intro hmem
      exact h g (by simp) 0 hmem rfl
    simp [joinZeros, this]
  | g :: g1 :: t, h, _ => by
    rw [joinZeros_cons g (g1 :: t) (by simp)]
    have hg : (g.count 0) = 0 := by
      rw [List.count_eq_zero]
      intro hmem
      exact h g (by simp) 0 hmem rfl
    have ih := count_zero_joinZeros (g1 :: t)
      (fun g2 hg2 => h g2 (List.mem_cons_of_mem _ hg2)) (by simp)
    simp [List.count_append, List.count_cons, hg, List.length_cons] at ih ⊢
    omega

theorem packLoop_flatten (demand : Int → Int) (capacity : Int) :
    ∀ (l cur : List Int) (load : Int),
      (packLoop demand capacity l cur load).flatten = cur ++ l
  | [], cur, load => by
    unfold packLoop
    split
    next hcur => simp [hcur]
    next => simp
  | c :: rest, cur, load => by
    unfold packLoop
    split
    · rw [packLoop_flatten demand capacity rest (cur ++ [c]) _]
      simp
    · simp only [List.flatten_cons, packLoop_flatten demand capacity rest [c] _]
      simp

theorem flatten_replicate_nil :
    ∀ k : Nat, (List.replicate k ([] : List Int)).flatten = [] := by
  intro k
  induction k with
  | zero => rfl
  | succ j ih => simp [List.replicate_succ, ih]

theorem flatten_padGroups (gs : List (List Int)) (vehicle : Int) :
    (padGroups gs vehicle).flatten = gs.flatten := by
  unfold padGroups
  rw [List.flatten_append, flatten_replicate_nil]
  simp

theorem mem_padGroups {gs : List (List Int)} {vehicle : Int} {g : List Int}
    (h : g ∈ padGroups gs vehicle) : g ∈ gs ∨ g = [] := by
  unfold padGroups at h
  rcases List.mem_append.1 h with h | h
  · exact Or.inl h
  · exact Or.inr (List.eq_of_mem_replicate h)

theorem le_length_padGroups (gs : List (List Int)) (vehicle : Int) :
    vehicle ≤ ((padGroups gs vehicle).length : Int) ∧
    gs.length ≤ (padGroups gs vehicle).length := by
  unfold padGroups
  simp only [List.length_append, List.length_replicate]
  omega

theorem mem_groups_ne_zero {shuffled : List Int} {capacity vehicle : Int}
    {demand : Int → Int} (h0 : (0 : Int) ∉ shuffled) :
    ∀ g ∈ padGroups (packLoop demand capacity shuffled [] 0) vehicle, ∀ v ∈ g, v ≠ 0 := by
  intro g hg v hv
  rcases mem_padGroups hg with hg | rfl
  · have hmem : v ∈ (packLoop demand capacity shuffled [] 0).flatten :=
      List.mem_flatten.2 ⟨g, hg, hv⟩
    rw [packLoop_flatten] at hmem
    simp only [List.nil_append] at hmem
    rintro rfl
    exact h0 hmem
  · cases hv

theorem nonzeros_genSeq {shuffled : List Int} {capacity vehicle : Int}
    {demand : Int → Int} (h0 : (0 : Int) ∉ shuffled) :
    nonzeros (genSeq shuffled capacity demand vehicle) = shuffled := by
  unfold genSeq
  rw [nonzeros_joinZeros _ (mem_groups_ne_zero h0), flatten_padGroups, packLoop_flatten]
  simp

theorem count_zero_genSeq {shuffled : List Int} {capacity vehicle : Int}
    {demand : Int → Int} (h0 : (0 : Int) ∉ shuffled) (hv : 1 ≤ vehicle) :
    vehicle - 1 ≤ ((genSeq shuffled capacity demand vehicle).count 0 : Int) := by
  unfold genSeq
  have hlen := le_length_padGroups (packLoop demand capacity shuffled [] 0) vehicle
  have hne : padGroups (packLoop demand capacity shuffled [] 0) vehicle ≠ [] := by
    intro hnil
    rw [hnil] at hlen
    simp at hlen
    omega
  have hcount := count_zero_joinZeros _ (mem_groups_ne_zero h0) hne
  omega

/-! `repairCustomer` acts as the identity whenever no nonzero token occurs
more than once and no id of the scanned range is absent. -/

theorem rcInner_noop (missing : List Int) :
    ∀ (seq : List Int) (idx : Nat) (cnt : Int → Int),
      (∀ v ∈ seq, v = 0 ∨ ¬(1 < cnt v)) →
      rcInner missing seq idx cnt = some (seq, cnt) := by
  intro seq
  induction seq with
  | nil => intro idx cnt _; rfl
  | cons v rest ih =>
    intro idx cnt h
    have hv : ¬(v ≠ 0 ∧ 1 < cnt v) := by
      rcases h v (by simp) with hv0 | hcnt
      · rintro ⟨hne, _⟩; exact hne hv0
      · rintro ⟨_, hlt⟩; exact hcnt hlt
    unfold rcInner
    rw [if_neg hv, ih idx cnt (fun w hw => h w (List.mem_cons_of_mem _ hw))]

theorem rcOuter_noop :
    ∀ (is : List Int) (seq : List Int) (cnt : Int → Int) (missing : List Int),
      (∀ v ∈ seq, v = 0 ∨ ¬(1 < cnt v)) →
      (∀ i ∈ is, cnt i ≠ 0) →
      rcOuter is seq cnt missing = some (seq, cnt, missing) := by
  intro is
  induction is with
  | nil => intro seq cnt missing _ _; rfl
  | cons i t ih =>
    intro seq cnt missing hseq his
    unfold rcOuter
    rw [if_neg (his i (by simp))]
    simp only [rcInner_noop missing seq 0 cnt hseq]
    exact ih seq cnt missing hseq (fun j hj => his j (List.mem_cons_of_mem _ hj))

theorem repairCustomer_noop {seq : List Int} {n : Int}
    (h1 : ∀ v ∈ seq, v = 0 ∨ seq.count v ≤ 1)
    (h2 : ∀ i : Int, 2 ≤ i → i ≤ n → seq.count i ≠ 0) :
    repairCustomer seq n = some seq := by
  unfold repairCustomer
  rw [rcOuter_noop (intRange 2 n) seq (initCount seq) []]
  · rfl
  · intro v hv
    rcases h1 v hv with hv0 | hle
    · exact Or.inl hv0
    · right
      unfold initCount
      split
      · omega
      · omega
  · intro i hi
    have hr := mem_intRange.1 hi
    have := h2 i hr.1 hr.2
    unfold initCount
    rw [if_neg (by omega)]
    omega

/-! Decoder structure: emitted routes are the separator-delimited segments,
the trailing segment being emitted only when nonempty; joining the interiors
back with separators recovers the chromosome up to one trailing separator. -/

theorem interior_closed (depot : Int) (acc : List Int) :
    interior ((depot :: acc) ++ [depot]) = acc := by
  simp [interior]

theorem stripLastZero_cons_of_ne (v : Int) (rest : List Int) (h : rest ≠ []) :
    stripLastZero (v :: rest) = v :: stripLastZero rest := by
  unfold stripLastZero
  rcases rest with _ | ⟨w, t⟩
  · exact absurd rfl h
  · rw [List.getLast?_cons_cons]
    split
    · rfl
    · rfl

theorem decodeAux_ne_nil (depot : Int) :
    ∀ (seq acc : List Int), seq ≠ [] → decodeAux depot seq (depot :: acc) ≠ [] := by
  intro seq
  induction seq with
  | nil => intro acc h; exact absurd rfl h
  | cons v rest ih =>
    intro acc _
    unfold decodeAux
    by_cases hv : v = 0
    · simp [hv]
    · rw [if_neg hv]
      rcases rest with _ | ⟨w, t⟩
      · unfold decodeAux
        simp
      · have hcur : (depot :: acc) ++ [v] = depot :: (acc ++ [v]) := by simp
        rw [hcur]
        exact ih (acc ++ [v]) (by simp)

theorem joinZeros_decodeAux (depot : Int) :
    ∀ (seq acc : List Int),
      joinZeros ((decodeAux depot seq (depot :: acc)).map interior) =
        acc ++ stripLastZero seq := by
  intro seq
  induction seq with
  | nil =>
    intro acc
    unfold decodeAux stripLastZero
    rcases acc with _ | ⟨a, t⟩
    · simp [joinZeros]
    · rw [if_pos (by simp)]
      simp only [List.map_cons, List.map_nil, interior_closed]
      simp [joinZeros]
  | cons v rest ih =>
    intro acc
    unfold decodeAux
    by_cases hv : v = 0
    · subst hv
      rw [if_pos rfl]
      simp only [List.map_cons, interior_closed]
      rcases hrest : rest with _ | ⟨w, t⟩
      · unfold decodeAux stripLastZero
        simp [joinZeros]
      · rw [← hrest]
        have hne : rest ≠ [] := by rw [hrest]; simp
        have hmapne : (decodeAux depot rest (depot :: [])).map interior ≠ [] := by
          simp only [ne_eq, List.map_eq_nil_iff]
          exact decodeAux_ne_nil depot rest [] hne
        rw [joinZeros_cons _ _ hmapne, ih []]
        rw [stripLastZero_cons_of_ne 0 rest hne]
        simp
    · rw [if_neg hv]
      have hcur : (depot :: acc) ++ [v] = depot :: (acc ++ [v]) := by simp
      rw [hcur, ih (acc ++ [v])]
      rcases hrest : rest with _ | ⟨w, t⟩
      · simp [stripLastZero, hv]
      · rw [← hrest]
        have hne : rest ≠ [] := by rw [hrest]; simp
        rw [stripLastZero_cons_of_ne v rest hne]
        simp

theorem length_decodeAux (depot : Int) :
    ∀ (seq acc : List Int),
      (decodeAux depot seq (depot :: acc)).length =
        seq.count 0 +
          (if seq.getLast? = some 0 ∨ (seq = [] ∧ acc = []) then 0 else 1) := by
  intro seq
  induction seq with
  | nil =>
    intro acc
    unfold decodeAux
    rcases acc with _ | ⟨a, t⟩
    · simp
    · simp
  | cons v rest ih =>
    intro acc
    unfold decodeAux
    by_cases hv : v = 0
    · subst hv
      rw [if_pos rfl]
      simp only [List.length_cons, ih []]
      rcases hrest : rest with _ | ⟨w, t⟩
      · simp
      · rw [← hrest]
        have hne : rest ≠ [] := by rw [hrest]; simp
        have hlast : (0 :: rest).getLast? = rest.getLast? := by
          rw [hrest]; exact List.getLast?_cons_cons
        rw [hlast]
        have hcount : (0 :: rest).count 0 = rest.count 0 + 1 := by
          simp [List.count_cons]
        rw [hcount]
        by_cases hz : rest.getLast? = some 0
        · rw [if_pos (Or.inl hz), if_pos (Or.inl hz)]
        · rw [if_neg (by simp [hz, hne]), if_neg (by simp [hz])]
    · rw [if_neg hv]
      have hcur : (depot :: acc) ++ [v] = depot :: (acc ++ [v]) := by simp
      rw [hcur, ih (acc ++ [v])]
      have hcount : (v :: rest).count 0 = rest.count 0 := by
        simp [List.count_cons, hv]
      rw [hcount]
      rcases hrest : rest with _ | ⟨w, t⟩
      · rw [if_neg (by simp), if_neg (by simp [hv])]
      · rw [← hrest]
        have hne : rest ≠ [] := by rw [hrest]; simp
        have hlast : (v :: rest).getLast? = rest.getLast? := by
          rw [hrest]; exact List.getLast?_cons_cons
        rw [hlast]
        by_cases hz : rest.getLast? = some 0
        · rw [if_pos (Or.inl hz), if_pos (Or.inl hz)]
        · rw [if_neg (by simp [hz, hne]), if_neg (by simp [hz])]

/-! Characterization of `checkSolution`: it succeeds exactly when all route
demands fit, no interior id is ever revisited, and ids `2..n` are covered. -/

theorem visitRoute_isSome (l : List Int) :
    ∀ vis : Int → Bool,
      (visitRoute l vis).isSome = true ↔ (l.Nodup ∧ ∀ v ∈ l, vis v = false) := by
  induction l with
  | nil => intro vis; simp [visitRoute]
  | cons v rest ih =>
    intro vis
    unfold visitRoute
    by_cases hv : vis v = true
    · rw [if_pos hv]
      simp only [Option.isSome_none, Bool.false_eq_true, false_iff]
      rintro ⟨_, hall⟩
      have := hall v (by simp)
      rw [hv] at this
      cases this
    · rw [if_neg hv]
      rw [ih _]
      have hvf : vis v = false := by
        cases hb : vis v
        · rfl
        · exact absurd hb hv
      constructor
      · rintro ⟨hnd, hall⟩
        refine ⟨List.nodup_cons.2 ⟨?_, hnd⟩, ?_⟩
        · intro hmem
          have := hall v hmem
          simp at this
        · intro w hw
          rcases List.mem_cons.1 hw with rfl | hw
          · exact hvf
          · have := hall w hw
            by_cases hwv : w = v
            · subst hwv; simp at this
            · simpa [hwv] using this
      · rintro ⟨hnd, hall⟩
        have hnd2 := List.nodup_cons.1 hnd
        refine ⟨hnd2.2, ?_⟩
        intro w hw
        by_cases hwv : w = v
        · subst hwv; exact absurd hw hnd2.1
        · simpa [hwv] using hall w (List.mem_cons_of_mem _ hw)

theorem visitRoute_some_apply (l : List Int) :
    ∀ (vis vis1 : Int → Bool), visitRoute l vis = some vis1 →
      ∀ x, vis1 x = true ↔ (vis x = true ∨ x ∈ l) := by
  induction l with
  | nil =>
    intro vis vis1 h x
    unfold visitRoute at h
    cases h
    simp
  | cons v rest ih =>
    intro vis vis1 h x
    unfold visitRoute at h
    split at h
    · cases h
    · have hx1 := ih _ _ h x
      rw [hx1]
      by_cases hx : x = v
      · subst hx; simp
      · simp [hx]

theorem checkRoutes_some_apply (demand : Int → Int) (capacity : Int) :
    ∀ (routes : List (List Int)) (vis vis1 : Int → Bool),
      checkRoutes demand capacity routes vis = some vis1 →
      ∀ x, vis1 x = true ↔ (vis x = true ∨ x ∈ (routes.map interior).flatten) := by
  intro routes
  induction routes with
  | nil =>
    intro vis vis1 h x
    unfold checkRoutes at h
    cases h
    simp
  | cons r rest ih =>
    intro vis vis1 h x
    unfold checkRoutes at h
    split at h
    · cases h
    · cases hv : visitRoute (interior r) vis with
      | none => rw [hv] at h; cases h
      | some vis2 =>
        rw [hv] at h
        have h1 := visitRoute_some_apply (interior r) vis vis2 hv x
        have h2 := ih vis2 vis1 h x
        rw [h2, h1]
        simp only [List.map_cons, List.flatten_cons, List.mem_append]
        tauto

theorem checkRoutes_isSome (demand : Int → Int) (capacity : Int) :
    ∀ (routes : List (List Int)) (vis : Int → Bool),
      (checkRoutes demand capacity routes vis).isSome = true ↔
        ((∀ r ∈ routes, routeDemand r demand ≤ capacity) ∧
          ((routes.map interior).flatten).Nodup ∧
          (∀ v ∈ (routes.map interior).flatten, vis v = false)) := by
  intro routes
  induction routes with
  | nil => intro vis; simp [checkRoutes]
  | cons r rest ih =>
    intro vis
    unfold checkRoutes
    by_cases hd : capacity < routeDemand r demand
    · rw [if_pos hd]
      simp only [Option.isSome_none, Bool.false_eq_true, false_iff]
      rintro ⟨hdem, _⟩
      exact absurd (hdem r (by simp)) (by omega)
    · rw [if_neg hd]
      cases hv : visitRoute (interior r) vis with
      | none =>
        have hvs := visitRoute_isSome (interior r) vis
        rw [hv] at hvs
        simp only [Option.isSome_none, Bool.false_eq_true, false_iff] at hvs ⊢
        rintro ⟨hdem, hnd, hall⟩
        apply hvs
        constructor
        · have : (interior r ++ (rest.map interior).flatten).Nodup := by simpa using hnd
          exact (List.nodup_append.1 this).1
        · intro w hw
          exact hall w (by simp [hw])
      | some vis2 =>
        have happ := visitRoute_some_apply (interior r) vis vis2 hv
        have hvs := visitRoute_isSome (interior r) vis
        rw [hv] at hvs
        simp only [Option.isSome_some, true_iff] at hvs
        rw [ih vis2]
        have happf : ∀ x, vis2 x = false ↔ (vis x = false ∧ x ∉ interior r) := by
          intro x
          have h1 := happ x
          cases hb : vis2 x <;> cases hc : vis x <;>
            simp [hb, hc] at h1 ⊢ <;> tauto
        simp only [List.map_cons, List.flatten_cons]
        constructor
        · rintro ⟨hdem, hnd, hall⟩
          refine ⟨?_, ?_, ?_⟩
          · intro r2 hr2
            rcases List.mem_cons.1 hr2 with rfl | hr2
            · omega
            · exact hdem r2 hr2
          · rw [List.nodup_append]
            refine ⟨hvs.1, hnd, ?_⟩
            intro a ha hafl
            have h1 := (happf a).1 (hall a hafl)
            exact h1.2 ha
          · intro w hw
            rcases List.mem_append.1 hw with hw | hw
            · exact hvs.2 w hw
            · exact ((happf w).1 (hall w hw)).1
        · rintro ⟨hdem, hnd, hall⟩
          rw [List.nodup_append] at hnd
          refine ⟨?_, hnd.2.1, ?_⟩
          · intro r2 hr2
            exact hdem r2 (List.mem_cons_of_mem _ hr2)
          · intro w hw
            refine (happf w).2 ⟨hall w (by simp [hw]), ?_⟩
            intro hwr
            exact (List.disjoint_left.1 hnd.2.2) hwr hw

theorem checkSolution_eq_true (routes : List (List Int)) (demand : Int → Int)
    (capacity n : Int) :
    checkSolution routes demand capacity n = true ↔
      ((∀ r ∈ routes, routeDemand r demand ≤ capacity) ∧
        ((routes.map interior).flatten).Nodup ∧
        (∀ i ∈ intRange 2 n, i ∈ (routes.map interior).flatten)) := by
  unfold checkSolution
  cases h : checkRoutes demand capacity routes (fun _ => false) with
  | none =>
    have hsome := checkRoutes_isSome demand capacity routes (fun _ => false)
    rw [h] at hsome
    simp only [Option.isSome_none, Bool.false_eq_true, false_iff] at hsome
    simp only [Bool.false_eq_true, false_iff]
    rintro ⟨hdem, hnd, _⟩
    exact hsome ⟨hdem, hnd, by simp⟩
  | some vis =>
    have happ := checkRoutes_some_apply demand capacity routes _ vis h
    have hsome := checkRoutes_isSome demand capacity routes (fun _ => false)
    rw [h] at hsome
    simp only [Option.isSome_some, true_iff] at hsome
    rw [List.all_eq_true]
    constructor
    · intro hall
      refine ⟨hsome.1, hsome.2.1, ?_⟩
      intro i hi
      have hvi := hall i hi
      rcases (happ i).1 (by simpa using hvi) with h1 | h1
      · simp at h1
      · exact h1
    · rintro ⟨_, _, hmem⟩
      intro i hi
      simpa using (happ i).2 (Or.inr (hmem i hi))

/-! Pipeline facts shared by several claims: the chromosome reaching
`repairCustomer` carries the shuffled customers unchanged, so the second
repair operator is the identity on it. -/

theorem zero_not_mem_of_perm {shuffled : List Int} {n : Int}
    (hperm : shuffled.Perm (intRange 2 n)) : (0 : Int) ∉ shuffled := by
  intro h
  have hm := mem_intRange.1 (hperm.mem_iff.1 h)
  omega

theorem pipeline_nonzeros {n vehicle capacity : Int} {demand : Int → Int}
    {shuffled out1 : List Int}
    (hperm : shuffled.Perm (intRange 2 n))
    (h1 : repairZero (genSeq shuffled capacity demand vehicle) vehicle = some out1) :
    nonzeros out1 = shuffled := by
  rw [repairZero_some_nonzeros h1, nonzeros_genSeq (zero_not_mem_of_perm hperm)]

theorem pipeline_noop {n vehicle capacity : Int} {demand : Int → Int}
    {shuffled out1 : List Int}
    (hperm : shuffled.Perm (intRange 2 n))
    (h1 : repairZero (genSeq shuffled capacity demand vehicle) vehicle = some out1) :
    repairCustomer out1 n = some out1 := by
  have hnz := pipeline_nonzeros hperm h1
  have hnd : shuffled.Nodup := hperm.nodup_iff.2 nodup_intRange
  apply repairCustomer_noop
  · intro v hv
    by_cases hv0 : v = 0
    · exact Or.inl hv0
    · right
      rw [← count_nonzeros out1 hv0, hnz]
      exact List.nodup_iff_count_le_one.1 hnd v
  · intro i h2i hin
    have hmem : i ∈ shuffled := hperm.mem_iff.2 (mem_intRange.2 ⟨h2i, hin⟩)
    have hpos : 0 < out1.count i := by
      rw [← count_nonzeros out1 (by omega), hnz]
      exact List.count_pos_iff.2 hmem
    omega

theorem count_one_of_pipeline {n vehicle capacity : Int} {demand : Int → Int}
    {shuffled out1 : List Int}
    (hperm : shuffled.Perm (intRange 2 n))
    (h1 : repairZero (genSeq shuffled capacity demand vehicle) vehicle = some out1) :
    ∀ i ∈ intRange 2 n, out1.count i = 1 := by
  intro i hi
  have hnz := pipeline_nonzeros hperm h1
  have hnd : shuffled.Nodup := hperm.nodup_iff.2 nodup_intRange
  have hi2 := mem_intRange.1 hi
  have hne : i ≠ 0 := by omega
  have hmem : i ∈ shuffled := hperm.mem_iff.2 hi
  have hpos : 0 < out1.count i := by
    rw [← count_nonzeros out1 hne, hnz]
    exact List.count_pos_iff.2 hmem
  have hle : out1.count i ≤ 1 := by
    rw [← count_nonzeros out1 hne, hnz]
    exact List.nodup_iff_count_le_one.1 hnd i
  omega

/-! Head and last token of a joined bin list. -/

theorem head_joinZeros :
    ∀ gs : List (List Int), (∀ g ∈ gs, ∀ v ∈ g, v ≠ 0) → 2 ≤ gs.length →
      ((joinZeros gs).head? = some 0 ↔ gs.head? = some []) := by
  intro gs h hlen
  rcases gs with _ | ⟨g, t⟩
  · simp at hlen
  rcases t with _ | ⟨g1, t1⟩
  · simp at hlen
  rw [joinZeros_cons g (g1 :: t1) (by simp)]
  rcases g with _ | ⟨a, t2⟩
  · simp
  · have ha : a ≠ 0 := h (a :: t2) (by simp) a (by simp)
    simp [ha]

theorem getLast_joinZeros :
    ∀ gs : List (List Int), (∀ g ∈ gs, ∀ v ∈ g, v ≠ 0) → 2 ≤ gs.length →
      ((joinZeros gs).getLast? = some 0 ↔ gs.getLast? = some []) := by
  intro gs
  induction gs with
  | nil => intro _ hlen; simp at hlen
  | cons g t ih =>
    intro h hlen
    rcases t with _ | ⟨g1, t1⟩
    · simp at hlen
    rw [joinZeros_cons g (g1 :: t1) (by simp)]
    rcases t1 with _ | ⟨ga, tb⟩
    · -- exactly two groups: g, g1
      rw [List.getLast?_append]
      rcases hg1 : g1 with _ | ⟨b, t2⟩
      · simp [joinZeros]
      · have hg1ne : (b :: t2) ≠ ([] : List Int) := by simp
        have hne : (b :: t2).getLast hg1ne ≠ 0 :=
          h (b :: t2) (by simp [hg1]) _ (List.getLast_mem _)
        rw [show joinZeros [b :: t2] = b :: t2 from rfl, List.getLast?_cons_cons,
          List.getLast?_eq_getLast _ hg1ne]
        simp [hne]
    · -- at least three groups
      have hne2 : joinZeros (g1 :: ga :: tb) ≠ [] := by
        rw [joinZeros_cons g1 (ga :: tb) (by simp)]
        simp
      rw [List.getLast?_append]
      have hih := ih (fun g2 hg2 => h g2 (List.mem_cons_of_mem _ hg2)) (by simp)
      rw [joinZeros_cons g1 (ga :: tb) (by simp)] at hih ⊢
      have hcons : (0 :: (g1 ++ 0 :: joinZeros (ga :: tb))).getLast? =
          (g1 ++ 0 :: joinZeros (ga :: tb)).getLast? := by
        rcases g1 with _ | ⟨c, t3⟩
        · simp
        · exact List.getLast?_cons_cons
      rw [hcons]
      have hnonempty : (g1 ++ 0 :: joinZeros (ga :: tb)).getLast?.isSome = true := by
        rw [List.getLast?_isSome]
        simp
      cases hl : (g1 ++ 0 :: joinZeros (ga :: tb)).getLast? with
      | none => rw [hl] at hnonempty; cases hnonempty
      | some x =>
        rw [hl] at hih
        simp only [Option.or_some]
        rw [hih]
        simp

/-! The claim theorems. -/

/-- C1: for every chromosome produced by the sequence generator and then
passed through `repairZero` followed by `repairCustomer`, every non-depot
customer id of the domain `2..n` appears exactly once among the
non-separator tokens of the result — no id is duplicated and none is
omitted (the nonzero tokens are a permutation of `2..n`). -/
theorem pipeline_customers_exactly_once
    (n vehicle capacity : Int) (demand : Int → Int)
    (shuffled out1 out2 : List Int)
    (hperm : shuffled.Perm (intRange 2 n))
    (h1 : repairZero (genSeq shuffled capacity demand vehicle) vehicle = some out1)
    (h2 : repairCustomer out1 n = some out2) :
    (nonzeros out2).Perm (intRange 2 n) := by
  have hno := pipeline_noop hperm h1
  rw [h2] at hno
  injection hno with hno
  rw [hno, pipeline_nonzeros hperm h1]
  exact hperm

/-- Witness for C1 at a concrete instance: n = 4, capacity 10, unit demand,
vehicle count 2, shuffle `[3, 2, 4]`. -/
theorem pipeline_customers_exactly_once_witness :
    (nonzeros [3, 2, 4, 0]).Perm (intRange 2 4) :=
  pipeline_customers_exactly_once 4 2 10 (fun _ => 1) [3, 2, 4] [3, 2, 4, 0] [3, 2, 4, 0]
    (by decide) (by decide) (by decide)

/-- C2: every chromosome produced by the generator and repaired by
`repairZero` then `repairCustomer` carries exactly `vehicle - 1` separator
tokens. -/
theorem pipeline_separator_count
    (n vehicle capacity : Int) (demand : Int → Int)
    (shuffled out1 out2 : List Int)
    (hperm : shuffled.Perm (intRange 2 n)) (hv : 1 ≤ vehicle)
    (h1 : repairZero (genSeq shuffled capacity demand vehicle) vehicle = some out1)
    (h2 : repairCustomer out1 n = some out2) :
    (out2.count 0 : Int) = vehicle - 1 := by
  have hno := pipeline_noop hperm h1
  rw [h2] at hno
  injection hno with hno
  rw [hno]
  exact repairZero_some_count h1
    (count_zero_genSeq (zero_not_mem_of_perm hperm) hv)

/-- Witness for C2 at the same concrete instance as C1. -/
theorem pipeline_separator_count_witness :
    (([3, 2, 4, 0] : List Int).count 0 : Int) = 2 - 1 :=
  pipeline_separator_count 4 2 10 (fun _ => 1) [3, 2, 4] [3, 2, 4, 0] [3, 2, 4, 0]
    (by decide) (by decide) (by decide) (by decide)

/-- C3: the claim says `repairZero` terminates on every chromosome whose
separator count is at least `vehicle - 1`.  The code does not: for the
reachable generator output `[0, 2]` (customer demand exceeding capacity,
one vehicle) the `for` loop body never runs because `i` starts at 1 and the
bound is `seq.size() - 1 = 1`, so the `while` loop spins forever — the loop
state repeats for every amount of fuel. -/
theorem repairZero_diverges_on_short_sequence :
    genSeq [2] 10 (fun v => if v = 2 then 11 else 0) 1 = [0, 2] ∧
    (1 - 1 : Int) ≤ (([0, 2] : List Int).count 0 : Int) ∧
    repairZero [0, 2] 1 = none ∧
    (∀ fuel : Nat, rzWhile 0 fuel [0, 2] 1 = none) := by
  refine ⟨by decide, by decide, by decide, ?_⟩
  intro fuel
  induction fuel with
  | zero => decide
  | succ k ih =>
    have hfor : rzFor 0 ([0, 2] : List Int).length [0, 2] 1 1 = ([0, 2], 1) := by decide
    unfold rzWhile
    rw [if_pos (by norm_num)]
    simp only [hfor]
    exact ih

/-- C4: for every chromosome reaching `repairCustomer` from the
generator-then-`repairZero` pipeline, the number of duplicate-occurrence
slots equals the length of the missing-id list (both are zero), and
`repairCustomer` never reads the missing list out of range (it returns a
value rather than hitting the modelled undefined behaviour). -/
theorem repairCustomer_no_missing_overflow
    (n vehicle capacity : Int) (demand : Int → Int)
    (shuffled out1 : List Int)
    (hperm : shuffled.Perm (intRange 2 n))
    (h1 : repairZero (genSeq shuffled capacity demand vehicle) vehicle = some out1) :
    dupSlots out1 = (missingList out1 n).length ∧
    (repairCustomer out1 n).isSome = true := by
  have hnz := pipeline_nonzeros hperm h1
  have hnd : shuffled.Nodup := hperm.nodup_iff.2 nodup_intRange
  constructor
  · have hdup : dupSlots out1 = 0 := by
      unfold dupSlots
      rw [List.length_eq_zero, List.filter_eq_nil_iff]
      intro v hv
      by_cases hv0 : v = 0
      · simp [hv0]
      · have hle : out1.count v ≤ 1 := by
          rw [← count_nonzeros out1 hv0, hnz]
          exact List.nodup_iff_count_le_one.1 hnd v
        simp only [Bool.and_eq_true, bne_iff_ne, ne_eq, decide_eq_true_eq]
        rintro ⟨_, hgt⟩
        omega
    have hmiss : missingList out1 n = [] := by
      unfold missingList
      rw [List.filter_eq_nil_iff]
      intro i hi
      have := count_one_of_pipeline hperm h1 i hi
      simp [this]
    rw [hdup, hmiss]
    rfl
  · rw [pipeline_noop hperm h1]
    rfl

/-- Witness for C4 at the same concrete instance as C1. -/
theorem repairCustomer_no_missing_overflow_witness :
    dupSlots [3, 2, 4, 0] = (missingList [3, 2, 4, 0] 4).length ∧
    (repairCustomer [3, 2, 4, 0] 4).isSome = true :=
  repairCustomer_no_missing_overflow 4 2 10 (fun _ => 1) [3, 2, 4] [3, 2, 4, 0]
    (by decide) (by decide)

/-- C5 counterexample: the claim says `repairZero` removes all separators
adjacent to another separator first and only then falls back to
leftmost-first removal.  On `[2, 0, 3, 0, 0, 4, 0, 0, 5]` with vehicle
count 4 the code removes the non-adjacent separator at index 1 before the
adjacent pair at indices 3-4 has been exhausted, producing
`[2, 3, 0, 4, 0, 0, 5]`, while the claimed preference order produces
`[2, 0, 3, 0, 4, 0, 5]`. -/
theorem repairZero_order_counterexample :
    (4 - 1 : Int) ≤ (([2, 0, 3, 0, 0, 4, 0, 0, 5] : List Int).count 0 : Int) ∧
    repairZero [2, 0, 3, 0, 0, 4, 0, 0, 5] 4 = some [2, 3, 0, 4, 0, 0, 5] ∧
    repairZeroSpec [2, 0, 3, 0, 0, 4, 0, 0, 5] 4 = [2, 0, 3, 0, 4, 0, 5] ∧
    repairZero [2, 0, 3, 0, 0, 4, 0, 0, 5] 4 ≠
      some (repairZeroSpec [2, 0, 3, 0, 0, 4, 0, 0, 5] 4) := by
  refine ⟨by decide, by decide, by decide, by decide⟩

/-- C5 amended: when `repairZero` terminates it removes only separator
tokens, leaving the subsequence of customer tokens unchanged, and leaves
exactly `vehicle - 1` separators whenever it started with at least that
many; the removal order, however, interleaves adjacent-pair removal with
leftmost-first removal inside one scan rather than exhausting adjacent
pairs first. -/
theorem repairZero_amended (seq : List Int) (vehicle : Int) (out : List Int)
    (h : repairZero seq vehicle = some out) :
    nonzeros out = nonzeros seq ∧
    ((vehicle - 1 : Int) ≤ (seq.count 0 : Int) →
      (out.count 0 : Int) = vehicle - 1) := by
  exact ⟨repairZero_some_nonzeros h, fun hge => repairZero_some_count h hge⟩

/-- Witness for the amended C5 on `[2, 0, 0, 3]` with vehicle count 2. -/
theorem repairZero_amended_witness :
    nonzeros [2, 0, 3] = nonzeros [2, 0, 0, 3] ∧
    ((2 - 1 : Int) ≤ (([2, 0, 0, 3] : List Int).count 0 : Int) →
      (([2, 0, 3] : List Int).count 0 : Int) = 2 - 1) :=
  repairZero_amended [2, 0, 0, 3] 2 [2, 0, 3] (by decide)

/-- C6 counterexample: the claim states `checkSolution` returns true iff all
route demands fit and every id in `2..n` is visited exactly once.  On the
routes `[[1,1,1],[1,1,1]]` (zero demand, capacity 0, n = 1) both spec
conditions hold — the range `2..1` is empty — yet the code returns false,
because it also rejects a revisit of the depot id 1 in route interiors. -/
theorem checkSolution_counterexample :
    checkSolution [[1, 1, 1], [1, 1, 1]] (fun _ => 0) 0 1 = false ∧
    checkSolutionSpec [[1, 1, 1], [1, 1, 1]] (fun _ => 0) 0 1 = true := by
  exact ⟨by decide, by decide⟩

/-- C6 amended: `checkSolution` returns true iff every route's interior
demand sum is at most the capacity, no interior token (of any id, the depot
included) occurs twice across the route interiors, and every id in `2..n`
appears among the interiors.  The emptiness hypothesis excludes the empty
routes on which the C++ loops underflow. -/
theorem checkSolution_characterization
    (routes : List (List Int)) (demand : Int → Int) (capacity n : Int)
    (_hne : ∀ r ∈ routes, r ≠ []) :
    checkSolution routes demand capacity n = true ↔
      ((∀ r ∈ routes, routeDemand r demand ≤ capacity) ∧
        ((routes.map interior).flatten).Nodup ∧
        (∀ i ∈ intRange 2 n, i ∈ (routes.map interior).flatten)) :=
  checkSolution_eq_true routes demand capacity n

/-- Witness for the amended C6 on the worked example of the specification:
capacity 10, demands 2 to 4, 3 to 5, 4 to 3, chromosome decoded as routes
`[1,2,3,1]` and `[1,4,1]`. -/
theorem checkSolution_characterization_witness :
    checkSolution [[1, 2, 3, 1], [1, 4, 1]]
      (fun i => if i = 2 then 4 else if i = 3 then 5 else if i = 4 then 3 else 0)
      10 4 = true := by
  have h := checkSolution_characterization [[1, 2, 3, 1], [1, 4, 1]]
    (fun i => if i = 2 then 4 else if i = 3 then 5 else if i = 4 then 3 else 0)
    10 4 (by decide)
  exact h.mpr (by decide)

/-- C7: the decoder emits an interior empty route (two adjacent separators)
as a degenerate `[depot, depot]` route of zero demand and zero cost, and
suppresses only the trailing empty route: `[0, 0]` with depot 1 decodes to
exactly two degenerate routes. -/
theorem decode_interior_empty_route :
    decodeSeq [0, 0] 1 = [[1, 1], [1, 1]] ∧
    (∀ demand : Int → Int, routeDemand [1, 1] demand = 0) ∧
    (∀ dist : Int → Int → ℚ, dist 1 1 = 0 → routeCost [1, 1] dist = 0) := by
  refine ⟨by decide, fun demand => rfl, fun dist hd => ?_⟩
  have h1 : edgeSum dist [1, 1] = dist 1 1 + 0 := rfl
  unfold routeCost
  rw [h1, hd]
  unfold rnd2 roundC
  rw [if_pos (by norm_num)]
  norm_num

/-- Witness for C7: the cost hypothesis discharged at the constant-zero
distance function. -/
theorem decode_interior_empty_route_witness :
    routeCost [1, 1] (fun _ _ => (0 : ℚ)) = 0 :=
  decode_interior_empty_route.2.2 (fun _ _ => (0 : ℚ)) rfl

/-- C8 counterexample: the valid chromosome `[2, 0]` (one separator for
vehicle count 2, the single customer once) decodes to the single route
`[1, 2, 1]`; concatenating the interiors with one separator at each route
boundary yields `[2]`, which does not reproduce the original token sequence
`[2, 0]` — the separator preceding the suppressed trailing empty route is
lost. -/
theorem decode_roundtrip_counterexample :
    (([2, 0] : List Int).count 0 : Int) = 2 - 1 ∧
    decodeSeq [2, 0] 1 = [[1, 2, 1]] ∧
    joinZeros ((decodeSeq [2, 0] 1).map interior) = [2] ∧
    ([2] : List Int) ≠ [2, 0] := by
  exact ⟨by decide, by decide, by decide, by decide⟩

/-- C8 amended: for a valid chromosome (`vehicle - 1` separators) the
decoder emits `vehicle` routes minus one exactly when the trailing route is
empty and suppressed, and joining the emitted interiors with one separator
per boundary reproduces the chromosome with its trailing separator (if any)
removed. -/
theorem decode_roundtrip_amended (seq : List Int) (vehicle depot : Int)
    (hV : (seq.count 0 : Int) = vehicle - 1) :
    ((decodeSeq seq depot).length : Int) +
        (if seq.getLast? = some 0 ∨ seq = [] then 1 else 0) = vehicle ∧
    joinZeros ((decodeSeq seq depot).map interior) = stripLastZero seq := by
  constructor
  · have hlen := length_decodeAux depot seq []
    unfold decodeSeq
    rw [hlen]
    have hcond : (seq.getLast? = some 0 ∨ (seq = [] ∧ ([] : List Int) = [])) ↔
        (seq.getLast? = some 0 ∨ seq = []) := by
      constructor
      · rintro (h | h)
        · exact Or.inl h
        · exact Or.inr h.1
      · rintro (h | h)
        · exact Or.inl h
        · exact Or.inr ⟨h, rfl⟩
    by_cases hc : seq.getLast? = some 0 ∨ seq = []
    · rw [if_pos (hcond.2 hc), if_pos hc]
      push_cast
      omega
    · rw [if_neg (fun hx => hc (hcond.1 hx)), if_neg hc]
      push_cast
      omega
  · exact joinZeros_decodeAux depot seq []

/-- Witness for the amended C8 on `[2, 0, 3]` with vehicle count 2. -/
theorem decode_roundtrip_amended_witness :
    ((decodeSeq [2, 0, 3] 1).length : Int) +
        (if ([2, 0, 3] : List Int).getLast? = some 0 ∨ ([2, 0, 3] : List Int) = []
          then 1 else 0) = 2 ∧
    joinZeros ((decodeSeq [2, 0, 3] 1).map interior) = stripLastZero [2, 0, 3] :=
  decode_roundtrip_amended [2, 0, 3] 2 1 (by decide)

/-- C9: cost rounding is applied at three levels — each edge distance is
rounded when computed (`euclidDist`), each route's edge sum is rounded again
(`routeCost`), and the sum of route costs is rounded a third time
(`totalCost`) — and this differs from rounding only once at the end.  The
exact distance `1.005` arises from the concrete coordinate difference
`(0.603, 0.804)`; with per-edge rounding the route `[1, 2, 1]` costs 2.02,
while rounding the exact edge sum once at the end yields 2.01. -/
theorem three_stage_rounding :
    (1005 / 1000 : ℚ) ^ 2 = (603 / 1000 : ℚ) ^ 2 + (804 / 1000 : ℚ) ^ 2 ∧
    (0 : ℚ) ≤ 1005 / 1000 ∧
    euclidDistOfRaw (1005 / 1000) = 101 / 100 ∧
    totalCost [[1, 2, 1]]
      (fun a b => euclidDistOfRaw (if a = b then 0 else 1005 / 1000)) = 202 / 100 ∧
    rnd2 (edgeSum (fun a b => (if a = b then 0 else 1005 / 1000)) [1, 2, 1]) = 201 / 100 ∧
    (202 / 100 : ℚ) ≠ 201 / 100 := by
  have hraw : euclidDistOfRaw (1005 / 1000) = 101 / 100 := by
    unfold euclidDistOfRaw rnd2 roundC
    rw [if_pos (by norm_num)]
    norm_num
  refine ⟨by norm_num, by norm_num, hraw, ?_, ?_, by norm_num⟩
  · have hedge : edgeSum
        (fun a b => euclidDistOfRaw (if a = b then 0 else 1005 / 1000)) [1, 2, 1] =
        euclidDistOfRaw (1005 / 1000) + (euclidDistOfRaw (1005 / 1000) + 0) := rfl
    unfold totalCost
    simp only [List.map_cons, List.map_nil, List.sum_cons, List.sum_nil]
    unfold routeCost
    rw [hedge, hraw]
    unfold rnd2 roundC
    rw [if_pos (by norm_num)]
    norm_num
  · have hedge : edgeSum (fun a b => (if a = b then 0 else 1005 / 1000 : ℚ)) [1, 2, 1] =
        (1005 / 1000 : ℚ) + ((1005 / 1000 : ℚ) + 0) := rfl
    rw [hedge]
    unfold rnd2 roundC
    rw [if_pos (by norm_num)]
    norm_num

/-- C10 counterexample: the claim says a generated chromosome never begins
or ends with a separator.  With customer set `{2}`, unit demand, capacity
10 and vehicle count 2 the generator packs one bin and pads with an empty
bin, producing `[2, 0]`, which ends with a separator. -/
theorem genSeq_trailing_separator_counterexample :
    ([2] : List Int).Perm (intRange 2 2) ∧
    genSeq [2] 10 (fun _ => 1) 2 = [2, 0] ∧
    ([2, 0] : List Int).getLast? = some 0 := by
  exact ⟨by decide, by decide, by decide⟩

/-- C10 amended: the generated chromosome is the bins joined with exactly
one separator between consecutive bins (separator count = bin count minus
one); when there are at least two bins it begins with a separator exactly
when the first bin is empty (first customer's demand exceeding capacity)
and ends with one exactly when the last bin is empty (padding). -/
theorem genSeq_separator_placement
    (n capacity vehicle : Int) (demand : Int → Int) (shuffled : List Int)
    (hperm : shuffled.Perm (intRange 2 n)) (hv : 1 ≤ vehicle) :
    ((genSeq shuffled capacity demand vehicle).count 0 : Int) + 1 =
      ((padGroups (packLoop demand capacity shuffled [] 0) vehicle).length : Int) ∧
    (2 ≤ (padGroups (packLoop demand capacity shuffled [] 0) vehicle).length →
      ((genSeq shuffled capacity demand vehicle).head? = some 0 ↔
        (padGroups (packLoop demand capacity shuffled [] 0) vehicle).head? = some [])) ∧
    (2 ≤ (padGroups (packLoop demand capacity shuffled [] 0) vehicle).length →
      ((genSeq shuffled capacity demand vehicle).getLast? = some 0 ↔
        (padGroups (packLoop demand capacity shuffled [] 0) vehicle).getLast? = some [])) := by
  have h0 := zero_not_mem_of_perm hperm
  have hgz := @mem_groups_ne_zero shuffled capacity vehicle demand h0
  have hlen := le_length_padGroups (packLoop demand capacity shuffled [] 0) vehicle
  have hne : padGroups (packLoop demand capacity shuffled [] 0) vehicle ≠ [] := by
    intro hnil
    rw [hnil] at hlen
    simp at hlen
    omega
  refine ⟨?_, ?_, ?_⟩
  · have := count_zero_joinZeros _ hgz hne
    unfold genSeq
    omega
  · intro h2
    exact head_joinZeros _ hgz h2
  · intro h2
    exact getLast_joinZeros _ hgz h2

/-- Witness for the amended C10: n = 3, unit demands, capacity 10, vehicle
count 3, shuffle `[3, 2]`; the generator yields `[3, 2, 0, 0]` with bins
`[[3, 2], [], []]`. -/
theorem genSeq_separator_placement_witness :
    ((genSeq [3, 2] 10 (fun _ => 1) 3).count 0 : Int) + 1 =
      ((padGroups (packLoop (fun _ => 1) 10 [3, 2] [] 0) 3).length : Int) ∧
    (2 ≤ (padGroups (packLoop (fun _ => 1) 10 [3, 2] [] 0) 3).length →
      ((genSeq [3, 2] 10 (fun _ => 1) 3).head? = some 0 ↔
        (padGroups (packLoop (fun _ => 1) 10 [3, 2] [] 0) 3).head? = some [])) ∧
    (2 ≤ (padGroups (packLoop (fun _ => 1) 10 [3, 2] [] 0) 3).length →
      ((genSeq [3, 2] 10 (fun _ => 1) 3).getLast? = some 0 ↔
        (padGroups (packLoop (fun _ => 1) 10 [3, 2] [] 0) 3).getLast? = some [])) :=
  genSeq_separator_placement 3 10 3 (fun _ => 1) [3, 2] (by decide) (by decide)

end Gatsp
